import Mathlib

/-!
Verification of the rangers-utils binary I/O and BlockPar codec stack.

This file gives a shallow embedding, in Lean 4, of the parts of the
repository that the verified properties speak about:

* `src/rangers/io/_io.py` — the typed little-endian stream primitives
  (`get_widestr`, `get_int`, ...), the `Buffer` stream cipher
  (`_rand31pm`, `cipher`, `decipher`), `calc_hash` (CRC-32) and
  `decompress`;
* `src/rangers/blockpar/_blockpar.py` — the `BlockPar` tree, its
  mutators (`add`, `add_par`, `add_block`), the binary codec
  (`save` / `load`), container loading (`from_dat`), the path lookup
  (`get_par`, `get_par_path`) and the heredoc part of the text codec
  (`save_txt` / `load_txt`).

Machine integers are modelled as `Nat` / `Int` with explicit reduction
modulo 2^w where the Python code itself reduces (struct packing, `& 255`).
Python `bytes` are `List Nat` (each element a byte value), Python `str`
values that only flow through the binary codec are `List Nat` of UTF-16
code units, and the text codec works on `List Char`.  Fallible Python
code (raising exceptions) is modelled with `Except`.
-/

namespace RU

/-- Little-endian unsigned interpretation of a byte list
(`int.from_bytes(a, "little", signed=False)`). -/
def leNat : List Nat → Nat
  | [] => 0
  | b :: rest => b % 256 + 256 * leNat rest

/-- Little-endian signed interpretation of a byte list, two's complement
(`bytes_to_int` in `src/rangers/common.py`:
`int.from_bytes(a, "little", signed=True)`). -/
def leInt (l : List Nat) : Int :=
  let u := leNat l
  if u < 2 ^ (8 * l.length - 1) ∨ l = [] then (u : Int)
  else (u : Int) - 2 ^ (8 * l.length)

/-- Four little-endian bytes of an integer, two's complement
(`struct.pack("<i", v)` / `struct.pack("<I", v)`; Python would raise on
out-of-range input, here the value is reduced mod 2^32 — all call sites
in the sources stay in range). -/
def toLE4 (v : Int) : List Nat :=
  let u := (v.emod (2 ^ 32)).toNat
  [u % 256, u / 256 % 256, u / 2 ^ 16 % 256, u / 2 ^ 24 % 256]

/-- `bytes_xor` from `src/rangers/common.py`: byte-wise xor, zip stops at
the shorter argument. -/
def bytesXor (a b : List Nat) : List Nat :=
  List.zipWith (fun x y => x ^^^ y) a b

/-! ## StreamCipher (`Buffer._rand31pm`, `Buffer.cipher`, `Buffer.decipher`)

`src/rangers/io/_io.py` lines 222-251.  The generator state and the byte
range are processed in strict ascending order; functionally the byte at
offset `begin + j` is xored with the `j`-th keystream byte. -/

/-- One step of the Lehmer-style generator in `Buffer._rand31pm`:
`hi, lo = divmod(seed, 0x1f31d); seed = lo * 0x41a7 - hi * 0xb14;
if seed < 1: seed += 0x7fffffff`.  Python `divmod` is floor
division/modulus, hence `Int.fdiv` / `Int.fmod`. -/
def rand31pmStep (s : Int) : Int :=
  let hi := Int.fdiv s 0x1f31d
  let lo := Int.fmod s 0x1f31d
  let t := lo * 0x41a7 - hi * 0xb14
  if t < 1 then t + 0x7fffffff else t

/-- The `n`-th state the generator yields from `seed` (0-based: the first
`next(gen)` returns `rand31pm seed 0 - 1`). -/
def rand31pm (seed : Int) : Nat → Int
  | 0 => rand31pmStep seed
  | n + 1 => rand31pmStep (rand31pm seed n)

/-- The `n`-th keystream byte: `next(gen) & 255` where the generator
yields `seed - 1`.  Python `& 255` on a possibly negative int is the
floor modulus. -/
def ksByte (seed : Int) (n : Nat) : Nat :=
  ((rand31pm seed n - 1).fmod 256).toNat

/-- The xor loop shared by `Buffer.cipher` and `Buffer.decipher`:
`for i in range(begin, end): view[i] = view[i] ^ (next(gen) & 255)`.
`i` is the index of the head of the remaining list. -/
def cipherBytes (key : Int) (b e : Nat) : Nat → List Nat → List Nat
  | _, [] => []
  | i, v :: rest =>
      (if b ≤ i ∧ i < e then v ^^^ ksByte key (i - b) else v)
        :: cipherBytes key b e (i + 1) rest

/-- An in-memory byte buffer with a cursor: the `Buffer` class over
`BytesIO` (`data` = underlying bytes, `pos` = `tell()`). -/
structure Buf where
  data : List Nat
  pos : Nat
deriving Repr

/-- `Buffer.cipher(key, size)`: xor the range `[pos, pos+size)` with the
keystream, then `seek(size, SEEK_CUR)` — the cursor ends just past the
range (the xor through `getbuffer()` does not move the cursor). -/
def Buf.cipher (buf : Buf) (key : Int) (size : Nat) : Buf :=
  ⟨cipherBytes key buf.pos (buf.pos + size) 0 buf.data, buf.pos + size⟩

/-- `Buffer.decipher(key, size)`: the identical xor transform, then
`seek(begin, SEEK_SET)` — the cursor is restored to the start of the
range. -/
def Buf.decipher (buf : Buf) (key : Int) (size : Nat) : Buf :=
  ⟨cipherBytes key buf.pos (buf.pos + size) 0 buf.data, buf.pos⟩

theorem cipherBytes_involutive (key : Int) (b e : Nat) :
    ∀ (i : Nat) (l : List Nat),
      cipherBytes key b e i (cipherBytes key b e i l) = l := by
  intro i l
  induction l generalizing i with
  | nil => rfl
  | cons v rest ih =>
      simp only [cipherBytes]
      by_cases h : b ≤ i ∧ i < e
      · simp [h, ih, Nat.xor_cancel_right]
      · simp [h, ih]

theorem cipherBytes_get? (key : Int) (b e : Nat) :
    ∀ (i j : Nat) (l : List Nat),
      (cipherBytes key b e i l).get? j =
        (l.get? j).map
          (fun v => if b ≤ i + j ∧ i + j < e then v ^^^ ksByte key (i + j - b) else v) := by
  intro i j l
  induction l generalizing i j with
  | nil => simp [cipherBytes]
  | cons v rest ih =>
      cases j with
      | zero => simp [cipherBytes]
      | succ j =>
          simp only [cipherBytes, List.get?]
          rw [ih (i + 1) j]
          have : i + 1 + j = i + (j + 1) := by omega
          rw [this]

theorem cipherBytes_length (key : Int) (b e : Nat) :
    ∀ (i : Nat) (l : List Nat), (cipherBytes key b e i l).length = l.length := by
  intro i l
  induction l generalizing i with
  | nil => rfl
  | cons v rest ih => simp [cipherBytes, ih]

/-- C3: for every byte buffer, starting position, in-bounds length and
seed, applying `Buffer.cipher` twice with the same seed over the same
byte range restores every byte of the buffer: the stream cipher is an
involution, because encrypt and decrypt are the identical
XOR-with-keystream transform. -/
theorem cipher_involution (data : List Nat) (pos size : Nat) (key : Int)
    (h : pos + size ≤ data.length) :
    (Buf.cipher ⟨(Buf.cipher ⟨data, pos⟩ key size).data, pos⟩ key size).data = data := by
  simp [Buf.cipher, cipherBytes_involutive]

/-- Witness for `cipher_involution` at a concrete buffer. -/
theorem cipher_involution_witness :
    (Buf.cipher ⟨(Buf.cipher ⟨[10, 20, 30, 40], 1⟩ 1984 2).data, 1⟩ 1984 2).data
      = [10, 20, 30, 40] :=
  cipher_involution [10, 20, 30, 40] 1 2 1984 (by decide)

/-- C9: `decipher` and `cipher` apply the identical XOR-with-keystream
transform to the range `[pos, pos+size)`; `decipher` restores the cursor
to the start of the range while `cipher` leaves it just past the end;
every byte outside the range is unchanged (the byte at index `j` is
xored with keystream byte `j - pos` exactly when `pos ≤ j < pos+size`,
and kept as-is otherwise). -/
theorem cipher_decipher_frame (data : List Nat) (pos size : Nat) (key : Int) (j : Nat)
    (h : pos + size ≤ data.length) :
    (Buf.decipher ⟨data, pos⟩ key size).data = (Buf.cipher ⟨data, pos⟩ key size).data ∧
    (Buf.cipher ⟨data, pos⟩ key size).pos = pos + size ∧
    (Buf.decipher ⟨data, pos⟩ key size).pos = pos ∧
    (Buf.decipher ⟨data, pos⟩ key size).data.get? j =
      (data.get? j).map
        (fun v => if pos ≤ j ∧ j < pos + size then v ^^^ ksByte key (j - pos) else v) := by
  refine ⟨rfl, rfl, rfl, ?_⟩
  simp only [Buf.decipher]
  rw [cipherBytes_get? key pos (pos + size) 0 j data]
  simp

/-- Witness for `cipher_decipher_frame` at a concrete buffer: byte 0 is
outside the range and unchanged, byte 1 is xored with the first
keystream byte. -/
theorem cipher_decipher_frame_witness :
    ((Buf.decipher ⟨[7, 8, 9], 1⟩ 42 2).data = (Buf.cipher ⟨[7, 8, 9], 1⟩ 42 2).data ∧
     (Buf.cipher ⟨[7, 8, 9], 1⟩ 42 2).pos = 1 + 2 ∧
     (Buf.decipher ⟨[7, 8, 9], 1⟩ 42 2).pos = 1 ∧
     (Buf.decipher ⟨[7, 8, 9], 1⟩ 42 2).data.get? 0 =
       (([7, 8, 9] : List Nat).get? 0).map
         (fun v => if 1 ≤ 0 ∧ 0 < 1 + 2 then v ^^^ ksByte 42 (0 - 1) else v)) :=
  cipher_decipher_frame [7, 8, 9] 1 2 42 0 (by decide)

/-! ## CRC-32 (`zlib.crc32`, used by `Buffer.calc_hash`)

The standard reflected CRC-32 (polynomial 0xEDB88320, initial value and
final xor 0xFFFFFFFF), bit by bit. -/

/-- One bit step of the reflected CRC-32. -/
def crc32Step (c : Nat) : Nat :=
  if c % 2 = 1 then (c / 2) ^^^ 0xEDB88320 else c / 2

/-- Fold one byte into the CRC accumulator. -/
def crc32Byte (c b : Nat) : Nat := crc32Step^[8] (c ^^^ b % 256)

/-- `zlib.crc32(data)` over a byte list. -/
def crc32 (l : List Nat) : Nat :=
  (l.foldl crc32Byte 0xFFFFFFFF) ^^^ 0xFFFFFFFF

/-! ## Typed stream reads (`AbstractIO.get*`)

`self._io.read(n)` returns *up to* `n` bytes and never raises; the
fixed-width `get_*` methods then fail with `struct.error` when `unpack`
receives fewer bytes than the format needs.  `get_widestr` never raises:
on a truncated input its scan loop hits the short read and returns the
empty string. -/

/-- The error values the modelled operations can raise. -/
inductive IOErr where
  /-- `struct.error`: `unpack` got fewer bytes than the format needs. -/
  | structError
  /-- `ValueError("AbstractIO.decompress: unknown format")` — raised
  identically for magic `b"ZL02"` and for an unrecognized magic. -/
  | unknownFormat
  /-- `zlib.error` from `zlib.decompress` on malformed deflate data. -/
  | zlibError
  /-- `Exception("BlockPar.from_dat: wrong content hash")`. -/
  | integrityError
  /-- Artifact of the fuel-bounded tree decoder, never reached when the
  fuel exceeds the input length (each decoded entry consumes at least
  one byte). -/
  | fuelExhausted
deriving DecidableEq, Repr

/-- `self._io.read(n)`: up to `n` bytes from the cursor; the cursor
advances by the number of bytes actually read. -/
def Buf.read (b : Buf) (n : Nat) : List Nat × Buf :=
  ((b.data.drop b.pos).take n, ⟨b.data, max b.pos (min (b.pos + n) b.data.length)⟩)

/-- `AbstractIO.get_uint`: `unpack("<I", read(4))`. -/
def Buf.getUint (b : Buf) : Except IOErr (Nat × Buf) :=
  let (bs, b') := b.read 4
  if bs.length < 4 then .error .structError else .ok (leNat bs, b')

/-- `AbstractIO.get_int`: `unpack("<i", read(4))`. -/
def Buf.getInt (b : Buf) : Except IOErr (Int × Buf) :=
  let (bs, b') := b.read 4
  if bs.length < 4 then .error .structError else .ok (leInt bs, b')

/-- `AbstractIO.get_bool`: `unpack("<B", read(1))[0] == 1`. -/
def Buf.getBool (b : Buf) : Except IOErr (Bool × Buf) :=
  let (bs, b') := b.read 1
  if bs.length < 1 then .error .structError else .ok (leNat bs == 1, b')

/-- `AbstractIO.get_byte`: `unpack("<B", read(1))`. -/
def Buf.getByte (b : Buf) : Except IOErr (Nat × Buf) :=
  let (bs, b') := b.read 1
  if bs.length < 1 then .error .structError else .ok (leNat bs, b')

/-- `AbstractIO.get_word`: `unpack("<H", read(2))`. -/
def Buf.getWord (b : Buf) : Except IOErr (Nat × Buf) :=
  let (bs, b') := b.read 2
  if bs.length < 2 then .error .structError else .ok (leNat bs, b')

/-- `AbstractIO.get_single`: `unpack("<f", read(4))`.  The value is
kept as the raw little-endian bit pattern; the IEEE-754 reading of
those four bytes plays no role in any property about this code, while
the truncation behaviour (`struct.error` on a short read) does. -/
def Buf.getSingle (b : Buf) : Except IOErr (Nat × Buf) :=
  let (bs, b') := b.read 4
  if bs.length < 4 then .error .structError else .ok (leNat bs, b')

/-- `AbstractIO.get_double`: `unpack("<d", read(8))`, bit pattern as in
`getSingle`. -/
def Buf.getDouble (b : Buf) : Except IOErr (Nat × Buf) :=
  let (bs, b') := b.read 8
  if bs.length < 8 then .error .structError else .ok (leNat bs, b')

/-- The scan loop of `AbstractIO.get_widestr`: read two bytes at a time
until the `0x0000` unit; `some size` is the byte count before the
terminator, `none` means a short read happened first (EOF). -/
def scanWS : List Nat → Option Nat
  | 0 :: 0 :: _ => some 0
  | _ :: _ :: rest => (scanWS rest).map (· + 2)
  | _ => none

/-- UTF-16LE byte pairs to code units (`bytes.decode("utf-16le")`
modelled at the code-unit level). -/
def utf16Units : List Nat → List Nat
  | lo :: hi :: rest => (lo % 256 + 256 * (hi % 256)) :: utf16Units rest
  | _ => []

/-- `AbstractIO.get_widestr`.  When the scan finds the terminator the
span before it is decoded and the cursor ends past the terminator; when
the scan hits EOF first the method returns `""` — it does *not* raise —
with the cursor at the end of the stream. -/
def Buf.getWidestr (b : Buf) : List Nat × Buf :=
  match scanWS (b.data.drop b.pos) with
  | some size => (utf16Units ((b.data.drop b.pos).take size), ⟨b.data, b.pos + size + 2⟩)
  | none => ([], ⟨b.data, max b.pos b.data.length⟩)

/-- C6 counterexample: a widestr whose `0x0000` terminator is missing
does not fail with a truncated-input error — `get_widestr` returns the
empty string (the source returns `''` on the short read) and moves the
cursor to the end of the stream.  The input holds the two UTF-16LE code
units of `"AB"` and then ends without a terminator. -/
theorem get_widestr_truncated_returns_empty :
    Buf.getWidestr ⟨[0x41, 0x00, 0x42, 0x00], 0⟩ = ([], ⟨[0x41, 0x00, 0x42, 0x00], 4⟩) :=
  rfl

/-- C6 amended: every fixed-width read — `get_bool`, `get_byte`,
`get_word`, `get_int`, `get_uint`, `get_single`, `get_double` — fails
with `struct.error` when it requests more bytes than remain, but
`get_widestr` whose `0x0000` terminator is not found before end of
stream returns the empty string and raises nothing. -/
theorem truncated_reads (data : List Nat) (pos : Nat) :
    (data.length < pos + 1 → Buf.getBool ⟨data, pos⟩ = .error .structError) ∧
    (data.length < pos + 1 → Buf.getByte ⟨data, pos⟩ = .error .structError) ∧
    (data.length < pos + 2 → Buf.getWord ⟨data, pos⟩ = .error .structError) ∧
    (data.length < pos + 4 → Buf.getInt ⟨data, pos⟩ = .error .structError) ∧
    (data.length < pos + 4 → Buf.getUint ⟨data, pos⟩ = .error .structError) ∧
    (data.length < pos + 4 → Buf.getSingle ⟨data, pos⟩ = .error .structError) ∧
    (data.length < pos + 8 → Buf.getDouble ⟨data, pos⟩ = .error .structError) ∧
    (scanWS (data.drop pos) = none → (Buf.getWidestr ⟨data, pos⟩).1 = []) := by
  have hlen : ∀ n : Nat, 0 < n → data.length < pos + n →
      ((data.drop pos).take n).length < n := by
    intro n hn h
    simp only [List.length_take, List.length_drop]
    omega
  refine ⟨?_, ?_, ?_, ?_, ?_, ?_, ?_, ?_⟩
  · intro h
    simp only [Buf.getBool, Buf.read]
    rw [if_pos (hlen 1 (by decide) h)]
  · intro h
    simp only [Buf.getByte, Buf.read]
    rw [if_pos (hlen 1 (by decide) h)]
  · intro h
    simp only [Buf.getWord, Buf.read]
    rw [if_pos (hlen 2 (by decide) h)]
  · intro h
    simp only [Buf.getInt, Buf.read]
    rw [if_pos (hlen 4 (by decide) h)]
  · intro h
    simp only [Buf.getUint, Buf.read]
    rw [if_pos (hlen 4 (by decide) h)]
  · intro h
    simp only [Buf.getSingle, Buf.read]
    rw [if_pos (hlen 4 (by decide) h)]
  · intro h
    simp only [Buf.getDouble, Buf.read]
    rw [if_pos (hlen 8 (by decide) h)]
  · intro hWS
    simp [Buf.getWidestr, hWS]

/-- Witness for `truncated_reads` at the end of a concrete 3-byte
buffer, where every fixed-width read is short and the widestr scan hits
EOF at once. -/
theorem truncated_reads_witness :
    Buf.getBool ⟨[1, 2, 3], 3⟩ = .error .structError ∧
    Buf.getByte ⟨[1, 2, 3], 3⟩ = .error .structError ∧
    Buf.getWord ⟨[1, 2, 3], 3⟩ = .error .structError ∧
    Buf.getInt ⟨[1, 2, 3], 3⟩ = .error .structError ∧
    Buf.getUint ⟨[1, 2, 3], 3⟩ = .error .structError ∧
    Buf.getSingle ⟨[1, 2, 3], 3⟩ = .error .structError ∧
    Buf.getDouble ⟨[1, 2, 3], 3⟩ = .error .structError ∧
    (Buf.getWidestr ⟨[1, 2, 3], 3⟩).1 = [] :=
  ⟨(truncated_reads [1, 2, 3] 3).1 (by decide),
   (truncated_reads [1, 2, 3] 3).2.1 (by decide),
   (truncated_reads [1, 2, 3] 3).2.2.1 (by decide),
   (truncated_reads [1, 2, 3] 3).2.2.2.1 (by decide),
   (truncated_reads [1, 2, 3] 3).2.2.2.2.1 (by decide),
   (truncated_reads [1, 2, 3] 3).2.2.2.2.2.1 (by decide),
   (truncated_reads [1, 2, 3] 3).2.2.2.2.2.2.1 (by decide),
   (truncated_reads [1, 2, 3] 3).2.2.2.2.2.2.2 (by decide)⟩

/-! ## Compression framing (`AbstractIO.decompress`, `Buffer._decompress`)

Raw deflate itself (`zlib.decompress`) is an external library; it enters
the model as a function parameter `inflate`, `none` standing for a
raised `zlib.error`.  The `bufsize` argument of `zlib.decompress` is an
initial output-buffer size hint, not a bound, and does not influence the
result. -/

/-- Python slicing `data[start:stop]` with a possibly negative `stop`
(a negative index counts from the end). -/
def pySlice (data : List Nat) (start : Nat) (stop : Int) : List Nat :=
  let e : Nat := if stop < 0 then ((data.length : Int) + stop).toNat else stop.toNat
  (data.take e).drop start

/-- `Buffer._decompress(start, size, bufsize)`: inflate
`getbuffer()[start:start+size]` and `seek(size, SEEK_CUR)`. -/
def Buf.pyDecompress (inflate : List Nat → Option (List Nat)) (b : Buf)
    (start : Nat) (size : Int) : Except IOErr (List Nat × Buf) :=
  match inflate (pySlice b.data start (start + size)) with
  | none => .error .zlibError
  | some r => .ok (r, ⟨b.data, ((b.pos : Int) + size).toNat⟩)

/-- The chunk loop of the `b"ZL03"` branch: `for i in range(n):
chunksize = get_uint(); result += _decompress(pos, chunksize, 65000)`. -/
def zl03Loop (inflate : List Nat → Option (List Nat)) :
    Buf → Nat → List Nat → Except IOErr (List Nat × Buf)
  | b, 0, acc => .ok (acc, b)
  | b, n + 1, acc =>
    match b.getUint with
    | .error e => .error e
    | .ok (chunksize, b1) =>
      match b1.pyDecompress inflate b1.pos (chunksize : Int) with
      | .error e => .error e
      | .ok (r, b2) => zl03Loop inflate b2 n (acc ++ r)

/-- The `b"ZL01"` branch of `decompress`: `bufsize = get_uint();
result = _decompress(pos, size - 8, bufsize)`. -/
def zl01Branch (inflate : List Nat → Option (List Nat)) (b1 : Buf) (size : Nat) :
    Except IOErr (List Nat × Buf) :=
  match b1.getUint with
  | .error e => .error e
  | .ok (_bufsize, b2) => b2.pyDecompress inflate b2.pos ((size : Int) - 8)

/-- The `b"ZL03"` branch of `decompress`: read the chunk count with
`get_int` and run the chunk loop (`range` of a negative count is
empty, hence `Int.toNat`). -/
def zl03Branch (inflate : List Nat → Option (List Nat)) (b1 : Buf) :
    Except IOErr (List Nat × Buf) :=
  match b1.getInt with
  | .error e => .error e
  | .ok (n, b2) => zl03Loop inflate b2 n.toNat []

/-- `AbstractIO.decompress(size)` for a `Buffer`.  The magic is obtained
with `read(4)` (which may return fewer bytes near EOF — any short magic
falls into the final `else`).  The `b"ZL02"` branch and the
unrecognized-magic branch raise the *same*
`ValueError("AbstractIO.decompress: unknown format")`, modelled by the
single error value `IOErr.unknownFormat`. -/
def Buf.decompress (inflate : List Nat → Option (List Nat)) (b : Buf) (size : Nat) :
    Except IOErr (List Nat × Buf) :=
  let (magic, b1) := b.read 4
  if magic = [0x5A, 0x4C, 0x30, 0x31] then          -- b"ZL01"
    zl01Branch inflate b1 size
  else if magic = [0x5A, 0x4C, 0x30, 0x32] then     -- b"ZL02"
    .error .unknownFormat
  else if magic = [0x5A, 0x4C, 0x30, 0x33] then     -- b"ZL03"
    zl03Branch inflate b1
  else
    .error .unknownFormat

/-- C5 counterexample to distinctness: the magic `b"ZL02"` and an
unrecognized magic (`b"XXXX"`) both make `decompress` raise the very
same error value — in the source both branches raise
`ValueError("AbstractIO.decompress: unknown format")` — so the two
failures are not reported as distinct, catchable error values. -/
theorem decompress_zl02_badmagic_same_error :
    Buf.decompress (fun _ => none) ⟨[0x5A, 0x4C, 0x30, 0x32], 0⟩ 4 = .error .unknownFormat ∧
    Buf.decompress (fun _ => none) ⟨[0x58, 0x58, 0x58, 0x58], 0⟩ 4 = .error .unknownFormat ∧
    Buf.decompress (fun _ => none) ⟨[0x5A, 0x4C, 0x30, 0x32], 0⟩ 4 =
      Buf.decompress (fun _ => none) ⟨[0x58, 0x58, 0x58, 0x58], 0⟩ 4 :=
  ⟨rfl, rfl, rfl⟩

/-- C5 amended: an input whose magic is `b"ZL02"` fails, and an input
whose magic is none of `b"ZL01"`, `b"ZL02"`, `b"ZL03"` fails, but both
failures carry the one and the same error value
(`ValueError("AbstractIO.decompress: unknown format")`), not two
distinct ones. -/
theorem decompress_unknown_format (inflate : List Nat → Option (List Nat))
    (b : Buf) (size : Nat) :
    ((b.data.drop b.pos).take 4 = [0x5A, 0x4C, 0x30, 0x32] →
        Buf.decompress inflate b size = .error .unknownFormat) ∧
    ((b.data.drop b.pos).take 4 ≠ [0x5A, 0x4C, 0x30, 0x31] →
      (b.data.drop b.pos).take 4 ≠ [0x5A, 0x4C, 0x30, 0x32] →
      (b.data.drop b.pos).take 4 ≠ [0x5A, 0x4C, 0x30, 0x33] →
        Buf.decompress inflate b size = .error .unknownFormat) := by
  constructor
  · intro h
    simp [Buf.decompress, Buf.read, h]
  · intro h1 h2 h3
    simp [Buf.decompress, Buf.read, h1, h2, h3]

/-- Witness for `decompress_unknown_format` at concrete buffers. -/
theorem decompress_unknown_format_witness :
    Buf.decompress (fun _ => some []) ⟨[0x5A, 0x4C, 0x30, 0x32, 1, 2], 0⟩ 6
        = .error .unknownFormat ∧
    Buf.decompress (fun _ => some []) ⟨[9, 9, 9, 9, 1, 2], 0⟩ 6
        = .error .unknownFormat :=
  ⟨(decompress_unknown_format (fun _ => some []) ⟨[0x5A, 0x4C, 0x30, 0x32, 1, 2], 0⟩ 6).1
      (by decide),
   (decompress_unknown_format (fun _ => some []) ⟨[9, 9, 9, 9, 1, 2], 0⟩ 6).2
      (by decide) (by decide) (by decide)⟩

/-! ## Container loading (`BlockPar.from_dat`)

`from_dat` reads `content_hash`, recovers the cipher seed from the next
four bytes xored with the fixed constant, deciphers the rest of the
file in place, recomputes the CRC-32 over the deciphered range and
either proceeds to `decompress` (hash match) or raises (mismatch).  The
final `BlockPar.load` on the decompressed bytes is beyond this claim
and is modelled separately below; here the pipeline stops at the
decompressed payload. -/

/-- The fixed seed constant of `BlockPar.from_dat`:
`seed_key = b"\x89\xc6\xe8\xb1"`. -/
def seedKeyBytes : List Nat := [0x89, 0xC6, 0xE8, 0xB1]

/-- `BlockPar.from_dat` up to and including `decompress`: returns the
decompressed payload bytes that would be handed to `BlockPar.load`. -/
def fromDatPayload (inflate : List Nat → Option (List Nat)) (file : List Nat) :
    Except IOErr (List Nat) :=
  let b : Buf := ⟨file, 0⟩
  match b.getUint with
  | .error e => .error e
  | .ok (contentHash, b1) =>
    let (seedRaw, b2) := b1.read 4
    let seed := leInt (bytesXor seedRaw seedKeyBytes)
    let size := b2.data.length - b2.pos
    let b3 := b2.decipher seed size
    let calcHash := crc32 ((b3.data.drop b3.pos).take size)
    if calcHash = contentHash then
      match b3.decompress inflate size with
      | .error e => .error e
      | .ok (unpacked, _) => .ok unpacked
    else .error .integrityError

/-- The `content_hash` field: the first four bytes, little-endian. -/
def fdHash (file : List Nat) : Nat := leNat (file.take 4)

/-- The cipher seed recovered by `from_dat`. -/
def fdSeed (file : List Nat) : Int :=
  leInt (bytesXor ((file.drop 4).take 4) seedKeyBytes)

/-- The deciphered buffer `from_dat` works on after `decipher` (cursor
restored to the start of the payload range). -/
def fdBuf (file : List Nat) : Buf :=
  Buf.decipher ⟨file, min 8 file.length⟩ (fdSeed file) (file.length - min 8 file.length)

/-- The deciphered payload range over which `calc_hash` runs. -/
def fdPayload (file : List Nat) : List Nat :=
  ((fdBuf file).data.drop (min 8 file.length)).take (file.length - min 8 file.length)

theorem getUint_error_eq (b : Buf) (e : IOErr) (h : b.getUint = .error e) :
    e = .structError := by
  simp only [Buf.getUint] at h
  split at h
  · simp only [Except.error.injEq] at h
    exact h.symm
  · simp at h

theorem getInt_error_eq (b : Buf) (e : IOErr) (h : b.getInt = .error e) :
    e = .structError := by
  simp only [Buf.getInt] at h
  split at h
  · simp only [Except.error.injEq] at h
    exact h.symm
  · simp at h

theorem pyDecompress_error_eq (inflate : List Nat → Option (List Nat)) (b : Buf)
    (start : Nat) (size : Int) (e : IOErr)
    (h : Buf.pyDecompress inflate b start size = .error e) : e = .zlibError := by
  simp only [Buf.pyDecompress] at h
  split at h
  · simp only [Except.error.injEq] at h
    exact h.symm
  · simp at h

theorem zl03Loop_ne_integrity (inflate : List Nat → Option (List Nat)) :
    ∀ (n : Nat) (b : Buf) (acc : List Nat),
      zl03Loop inflate b n acc ≠ .error .integrityError := by
  intro n
  induction n with
  | zero => intro b acc h; simp [zl03Loop] at h
  | succ n ih =>
      intro b acc h
      simp only [zl03Loop] at h
      cases hgu : b.getUint with
      | error e =>
          rw [hgu] at h
          simp only [Except.error.injEq] at h
          have he := getUint_error_eq b e hgu
          rw [he] at h
          exact IOErr.noConfusion h
      | ok p =>
          obtain ⟨chunksize, b1⟩ := p
          rw [hgu] at h
          simp only [] at h
          cases hpd : b1.pyDecompress inflate b1.pos (chunksize : Int) with
          | error e =>
              rw [hpd] at h
              simp only [Except.error.injEq] at h
              have he := pyDecompress_error_eq inflate b1 b1.pos (chunksize : Int) e hpd
              rw [he] at h
              exact IOErr.noConfusion h
          | ok q =>
              obtain ⟨r, b2⟩ := q
              rw [hpd] at h
              exact ih b2 (acc ++ r) h

theorem zl01Branch_ne_integrity (inflate : List Nat → Option (List Nat))
    (b1 : Buf) (size : Nat) :
    zl01Branch inflate b1 size ≠ .error .integrityError := by
  intro h
  simp only [zl01Branch] at h
  cases hgu : b1.getUint with
  | error e =>
      rw [hgu] at h
      simp only [Except.error.injEq] at h
      have he := getUint_error_eq b1 e hgu
      rw [he] at h
      exact IOErr.noConfusion h
  | ok p =>
      obtain ⟨bs, b2⟩ := p
      rw [hgu] at h
      simp only [] at h
      have he := pyDecompress_error_eq inflate b2 b2.pos ((size : Int) - 8)
        IOErr.integrityError h
      exact IOErr.noConfusion he

theorem zl03Branch_ne_integrity (inflate : List Nat → Option (List Nat)) (b1 : Buf) :
    zl03Branch inflate b1 ≠ .error .integrityError := by
  intro h
  simp only [zl03Branch] at h
  cases hgi : b1.getInt with
  | error e =>
      rw [hgi] at h
      simp only [Except.error.injEq] at h
      have he := getInt_error_eq b1 e hgi
      rw [he] at h
      exact IOErr.noConfusion h
  | ok p =>
      obtain ⟨n, b2⟩ := p
      rw [hgi] at h
      exact zl03Loop_ne_integrity inflate n.toNat b2 [] h

theorem decompress_ne_integrity (inflate : List Nat → Option (List Nat))
    (b : Buf) (size : Nat) :
    Buf.decompress inflate b size ≠ .error .integrityError := by
  intro h
  simp only [Buf.decompress] at h
  split at h
  · exact zl01Branch_ne_integrity inflate _ size h
  · split at h
    · exact IOErr.noConfusion (Except.error.inj h)
    · split at h
      · exact zl03Branch_ne_integrity inflate _ h
      · exact IOErr.noConfusion (Except.error.inj h)

/-- C4: loading an encrypted container computes the CRC-32 over the
deciphered byte range and fails with the integrity error exactly when
that CRC-32 differs from the `content_hash` field at the head of the
file; when the two agree the load proceeds to decompression (whose own
failures are distinct error values, never the integrity error). -/
theorem from_dat_integrity_check (inflate : List Nat → Option (List Nat))
    (file : List Nat) (h : 4 ≤ file.length) :
    (fromDatPayload inflate file = .error .integrityError ↔
        crc32 (fdPayload file) ≠ fdHash file) ∧
    (crc32 (fdPayload file) = fdHash file →
        fromDatPayload inflate file =
          ((fdBuf file).decompress inflate (file.length - min 8 file.length)).map Prod.fst) := by
  have hread : Buf.getUint ⟨file, 0⟩ = .ok (leNat (file.take 4), ⟨file, 4⟩) := by
    have h4 : ¬ (file.take 4).length < 4 := by
      simp only [List.length_take]
      omega
    have hp : max 0 (min (0 + 4) file.length) = 4 := by omega
    simp only [Buf.getUint, Buf.read, List.drop_zero, hp]
    rw [if_neg h4]
  have heq : fromDatPayload inflate file =
      if crc32 (fdPayload file) = fdHash file then
        ((fdBuf file).decompress inflate (file.length - min 8 file.length)).map Prod.fst
      else .error .integrityError := by
    have hmax : max 4 (min (4 + 4) file.length) = min 8 file.length := by omega
    simp only [fromDatPayload, hread, Buf.read, hmax, fdHash, fdSeed, fdBuf, fdPayload,
      Buf.decipher]
    split
    · rcases hdec : Buf.decompress inflate
          ⟨cipherBytes (leInt (bytesXor ((file.drop 4).take 4) seedKeyBytes))
            (min 8 file.length) (min 8 file.length + (file.length - min 8 file.length)) 0 file,
           min 8 file.length⟩ (file.length - min 8 file.length) with e | p
      · simp [hdec, Except.map]
      · obtain ⟨unpacked, bfin⟩ := p
        simp [hdec, Except.map]
    · rfl
  constructor
  · rw [heq]
    split
    · rename_i hcrc
      constructor
      · intro habs
        exact absurd habs (by
          intro hx
          rcases hdec : Buf.decompress inflate (fdBuf file) (file.length - min 8 file.length)
              with e | p
          · rw [hdec] at hx
            simp only [Except.map] at hx
            have hne := decompress_ne_integrity inflate (fdBuf file)
              (file.length - min 8 file.length)
            rw [hdec] at hne
            simp only [Except.error.injEq] at hx
            rw [hx] at hne
            exact hne rfl
          · rw [hdec] at hx
            simp [Except.map] at hx)
      · intro habs
        exact absurd hcrc habs
    · rename_i hcrc
      simp [hcrc]
  · intro hcrc
    rw [heq, if_pos hcrc]

/-- Witness for `from_dat_integrity_check`: an 8-byte file whose payload
is empty, whose stored hash is `crc32(b"") = 0` and whose xored seed
equals the constant.  The hash check passes, so the pipeline proceeds to
decompression (which then fails on the empty magic with the distinct
unknown-format error, not the integrity error). -/
theorem from_dat_integrity_check_witness :
    ((fromDatPayload (fun _ => some []) [0, 0, 0, 0, 0x89, 0xC6, 0xE8, 0xB1]
          = .error .integrityError ↔
        crc32 (fdPayload [0, 0, 0, 0, 0x89, 0xC6, 0xE8, 0xB1])
          ≠ fdHash [0, 0, 0, 0, 0x89, 0xC6, 0xE8, 0xB1]) ∧
     (crc32 (fdPayload [0, 0, 0, 0, 0x89, 0xC6, 0xE8, 0xB1])
          = fdHash [0, 0, 0, 0, 0x89, 0xC6, 0xE8, 0xB1] →
        fromDatPayload (fun _ => some []) [0, 0, 0, 0, 0x89, 0xC6, 0xE8, 0xB1] =
          ((fdBuf [0, 0, 0, 0, 0x89, 0xC6, 0xE8, 0xB1]).decompress (fun _ => some [])
            ([0, 0, 0, 0, 0x89, 0xC6, 0xE8, 0xB1].length -
              min 8 [0, 0, 0, 0, 0x89, 0xC6, 0xE8, 0xB1].length)).map Prod.fst)) :=
  from_dat_integrity_check (fun _ => some []) [0, 0, 0, 0, 0x89, 0xC6, 0xE8, 0xB1] (by decide)

/-! ## The BlockPar tree (`BlockPar`, `BlockParNode`, `BlockPar.add`)

`BlockPar` is a multidict of named nodes; a node is a parameter (string
content) or a block (child `BlockPar`), plus a `count` slot.  `add`
appends the node and, when the container's `sorted` flag is set,
increments `count` on the *first* node stored under that name
(`first = self._map.getone(name); first.count += 1`).  `EMPTY`-kind
nodes cannot arise through the constructors modelled here (creating one
through `add_empty` crashes in the source: `ElementKind.UNDEF` does not
exist), so entries are parameters or blocks. -/

/-- A Python `str` flowing through the binary codec, at the level of its
UTF-16 code units. -/
abbrev WStr := List Nat

/-- One `(name, BlockParNode)` item of the multidict. -/
inductive Entry where
  | par (name value : WStr) (count : Nat)
  | blk (name : WStr) (srt : Bool) (children : List Entry) (count : Nat)

/-- The node's key. -/
def Entry.name : Entry → WStr
  | .par n _ _ => n
  | .blk n _ _ _ => n

/-- The node's `count` slot. -/
def Entry.count : Entry → Nat
  | .par _ _ c => c
  | .blk _ _ _ c => c

/-- `node.count += 1`. -/
def Entry.bump : Entry → Entry
  | .par n v c => .par n v (c + 1)
  | .blk n s ch c => .blk n s ch (c + 1)

/-- The content handed to `BlockPar.add`. -/
inductive EContent where
  | par (value : WStr)
  | blk (srt : Bool) (children : List Entry)

/-- `BlockParNode(self, content)`: a fresh node, `count = 0`. -/
def mkNode (name : WStr) : EContent → Entry
  | .par v => .par name v 0
  | .blk s ch => .blk name s ch 0

/-- Increment `count` on the first entry stored under `name`
(`self._map.getone(name).count += 1`). -/
def incFirst (name : WStr) : List Entry → List Entry
  | [] => []
  | e :: rest =>
      if e.name == name then e.bump :: rest else e :: incFirst name rest

/-- The `BlockPar` container: the `sorted` flag and the multidict items
in insertion order. -/
structure BP where
  srt : Bool
  entries : List Entry

/-- `BlockPar.add` (and its specializations `add_par` / `add_block`):
append the node; if `self.sorted`, bump the first node under the key. -/
def BP.add (bp : BP) (name : WStr) (c : EContent) : BP :=
  let es := bp.entries ++ [mkNode name c]
  ⟨bp.srt, if bp.srt then incFirst name es else es⟩

/-! ## Binary codec (`BlockPar.save`, `BlockPar.load`)

`save` writes `sorted:bool`, `count:int`, then — in the sorted case —
iterates `for name in sorted(self._map.keys())` and, per key occurrence,
`for i, node in enumerate(self._map.getall(name))`.  `MultiDict.keys()`
yields one key per *item*, so a key stored `n` times occurs `n` times in
the sorted key list and its group of `n` records is emitted `n` times
over, even though the `count` header said `len(self._map)`.

Recursion into child blocks is bounded here by an explicit `fuel`
argument (the source recurses on the tree structure; `sizeOf` the tree
strictly exceeds its nesting depth, so the fuel branch is never hit). -/

/-- `v.encode("utf-16le") + b"\x00\x00"` (`add_widestr`), at the
code-unit level. -/
def encW (s : WStr) : List Nat :=
  (s.flatMap (fun u => [u % 256, u / 256 % 256])) ++ [0, 0]

/-- Python `str` comparison `a < b` on the code units. -/
def wlt : WStr → WStr → Bool
  | [], [] => false
  | [], _ :: _ => true
  | _ :: _, [] => false
  | x :: xs, y :: ys => if x < y then true else if y < x then false else wlt xs ys

/-- Insert into a sorted list of keys (helper for `sortW`). -/
def insertW (x : WStr) : List WStr → List WStr
  | [] => [x]
  | y :: ys => if wlt x y then x :: y :: ys else y :: insertW x ys

/-- Python `sorted` on a list of keys (insertion sort — equal keys are
identical strings, so stability is irrelevant). -/
def sortW : List WStr → List WStr
  | [] => []
  | x :: xs => insertW x (sortW xs)

/-- The record sequence the sorted branch of `save` walks: for each
occurrence of a key in `sorted(self._map.keys())` (duplicates
included!), the enumerated group `self._map.getall(name)` with each
node's `(i, node.count)`. -/
def sortedSeq (es : List Entry) : List (Nat × Nat × Entry) :=
  (sortW (es.map Entry.name)).flatMap
    (fun k => ((es.filter (fun e => e.name == k)).enum).map
      (fun p => (p.1, p.2.count, p.2)))

/-- The `(index, count)` pairs written by the sorted branch of `save`,
in emission order. -/
def recordPairs (es : List Entry) : List (Nat × Nat) :=
  (sortedSeq es).map (fun p => (p.1, p.2.1))

/-- `BlockPar.save` for one container level: `add_bool(sorted)`,
`add_int(len(self._map))`, then the sorted record walk (with the
`(i, node.count)` pair before each record body) or the plain
insertion-order walk.  A record body is `kind:byte`, `name:widestr`,
then the value widestr or the recursively saved child block. -/
def saveBlock : Nat → Bool → List Entry → List Nat
  | 0, _, _ => []
  | fuel + 1, srt, es =>
    (if srt then [1] else [0]) ++ toLE4 (es.length : Int) ++
    (if srt then
      (sortedSeq es).flatMap
        (fun p => toLE4 (p.1 : Int) ++ toLE4 (p.2.1 : Int) ++
          (match p.2.2 with
           | .par n v _ => 1 :: (encW n ++ encW v)
           | .blk n s ch _ => 2 :: (encW n ++ saveBlock fuel s ch)))
     else
      es.flatMap (fun e =>
        match e with
        | .par n v _ => 1 :: (encW n ++ encW v)
        | .blk n s ch _ => 2 :: (encW n ++ saveBlock fuel s ch)))

/-- `BlockPar.save` of a whole tree into a fresh byte stream; `fuel`
bounds the nesting depth (the source recurses on the tree itself, so
any fuel above the tree's depth gives the saved bytes). -/
def BP.save (fuel : Nat) (bp : BP) : List Nat :=
  saveBlock fuel bp.srt bp.entries

/-- The loop of `BlockPar.load`: read `length` entries into `bp`; in a
sorted container first skip the `(index, count)` ints; kind 1 appends a
parameter, kind 2 reads `sorted`/`count` of the child and decodes it
with a fresh container, any other kind byte is skipped.  `fuel` bounds
the total number of decoded entries (each successful iteration consumes
at least the kind byte, so `input length + 1` never exhausts). -/
def loadLoop : Nat → Bool → Nat → BP → Buf → Except IOErr (BP × Buf)
  | _, _, 0, bp, b => .ok (bp, b)
  | 0, _, _ + 1, _, _ => .error .fuelExhausted
  | fuel + 1, srt, n + 1, bp, b =>
    let step : Except IOErr Buf :=
      if srt then
        match b.getInt with
        | .error e => .error e
        | .ok (_, b1) =>
          match b1.getInt with
          | .error e => .error e
          | .ok (_, b2) => .ok b2
      else .ok b
    match step with
    | .error e => .error e
    | .ok b2 =>
      match b2.getByte with
      | .error e => .error e
      | .ok (kind, b3) =>
        if kind = 1 then
          let (name, b4) := b3.getWidestr
          let (value, b5) := b4.getWidestr
          loadLoop fuel srt n (bp.add name (.par value)) b5
        else if kind = 2 then
          let (name, b4) := b3.getWidestr
          match b4.getBool with
          | .error e => .error e
          | .ok (csrt, b5) =>
            match b5.getInt with
            | .error e => .error e
            | .ok (clen, b6) =>
              match loadLoop fuel csrt clen.toNat ⟨csrt, []⟩ b6 with
              | .error e => .error e
              | .ok (child, b7) =>
                loadLoop fuel srt n (bp.add name (.blk child.srt child.entries)) b7
        else
          loadLoop fuel srt n bp b3

/-- `BlockPar.load` on one container: `self.sorted = get_bool()`,
`length = get_int()`, then the entry loop. -/
def loadBlock (fuel : Nat) (b : Buf) : Except IOErr (BP × Buf) :=
  match b.getBool with
  | .error e => .error e
  | .ok (csrt, b1) =>
    match b1.getInt with
    | .error e => .error e
    | .ok (len, b2) => loadLoop fuel csrt len.toNat ⟨csrt, []⟩ b2

/-- `BlockPar.load` of a byte string into a fresh tree; trailing bytes
after the root container are ignored (as in `from_dat`). -/
def loadTop (file : List Nat) : Except IOErr BP :=
  (loadBlock (file.length + 1) ⟨file, 0⟩).map Prod.fst

/-- The sorted tree `a=1, a=2, b=3` built through `add` (the failing
input for the binary round-trip). -/
def bpBug : BP :=
  (((BP.mk true []).add [97] (.par [49])).add [97] (.par [50])).add [98] (.par [51])

/-- The count list `add` maintains on a key group of size `n` in a
sorted container: `n` on the first node, `0` on the others. -/
def groupCounts : Nat → List Nat
  | 0 => []
  | n + 1 => (n + 1) :: List.replicate n 0

/-- A container populated through `add` starting from the empty sorted
`BlockPar()`. -/
def buildSorted (adds : List (WStr × EContent)) : BP :=
  adds.foldl (fun bp p => bp.add p.1 p.2) ⟨true, []⟩

theorem Entry.name_bump (e : Entry) : e.bump.name = e.name := by
  cases e <;> rfl

theorem Entry.count_bump (e : Entry) : e.bump.count = e.count + 1 := by
  cases e <;> rfl

theorem mkNode_name (name : WStr) (c : EContent) : (mkNode name c).name = name := by
  cases c <;> rfl

theorem mkNode_count (name : WStr) (c : EContent) : (mkNode name c).count = 0 := by
  cases c <;> rfl

theorem filter_incFirst_ne (k name : WStr) (hne : k ≠ name) :
    ∀ es : List Entry,
      (incFirst name es).filter (fun e => e.name == k) =
        es.filter (fun e => e.name == k) := by
  intro es
  induction es with
  | nil => rfl
  | cons e rest ih =>
      simp only [incFirst]
      by_cases he : e.name = name
      · have hcond : (e.name == name) = true := by simp [he]
        have h1 : (e.bump.name == k) = false := by
          rw [Entry.name_bump, he]
          simp
          exact fun hx => hne hx.symm
        have h2 : (e.name == k) = false := by
          rw [he]
          simp
          exact fun hx => hne hx.symm
        rw [if_pos hcond]
        simp [List.filter_cons, h1, h2]
      · have hcond : ¬ (e.name == name) = true := by simp [he]
        rw [if_neg hcond]
        simp only [List.filter_cons, ih]

theorem filter_incFirst_eq (k : WStr) :
    ∀ es : List Entry,
      (incFirst k es).filter (fun e => e.name == k) =
        (match es.filter (fun e => e.name == k) with
         | [] => []
         | e :: rest => e.bump :: rest) := by
  intro es
  induction es with
  | nil => rfl
  | cons e rest ih =>
      simp only [incFirst]
      by_cases he : e.name = k
      · have hcond : (e.name == k) = true := by simp [he]
        have hbk : (e.bump.name == k) = true := by
          rw [Entry.name_bump]; simp [he]
        rw [if_pos hcond]
        simp [List.filter_cons, hbk, hcond]
      · have hcond : ¬ (e.name == k) = true := by simp [he]
        have hek : (e.name == k) = false := by simp [he]
        rw [if_neg hcond]
        simp only [List.filter_cons, hek, Bool.false_eq_true, if_false]
        rw [ih]

/-- One `add` step preserves the count invariant on every key group. -/
theorem counts_inv_add (es : List Entry) (name : WStr) (c : EContent) (k : WStr)
    (h : (es.filter (fun e => e.name == k)).map Entry.count =
          groupCounts (es.filter (fun e => e.name == k)).length) :
    ((incFirst name (es ++ [mkNode name c])).filter (fun e => e.name == k)).map Entry.count =
      groupCounts
        ((incFirst name (es ++ [mkNode name c])).filter (fun e => e.name == k)).length := by
  by_cases hk : k = name
  · subst hk
    rw [filter_incFirst_eq k (es ++ [mkNode k c])]
    rw [List.filter_append]
    have hnew : ([mkNode k c].filter (fun e => e.name == k)) = [mkNode k c] := by
      simp [List.filter_cons, mkNode_name]
    rw [hnew]
    rcases hes : es.filter (fun e => e.name == k) with _ | ⟨e, rest⟩
    · rw [hes]
      simp [Entry.count_bump, mkNode_count, groupCounts]
    · rw [hes] at h
      rw [hes]
      simp only [List.map_cons, List.length_cons, groupCounts] at h
      obtain ⟨h1, h2⟩ := List.cons.inj h
      simp only [List.cons_append, List.map_cons, List.length_cons,
        Entry.count_bump, List.map_append, h2, h1, List.length_append,
        List.length_replicate, List.map_nil, List.length_nil]
      simp [groupCounts, List.replicate_succ', mkNode_count]
  · rw [filter_incFirst_ne k name hk (es ++ [mkNode name c])]
    rw [List.filter_append]
    have hnew : ([mkNode name c].filter (fun e => e.name == k)) = [] := by
      simp [List.filter_cons, mkNode_name]
      exact fun hx => hk hx.symm
    rw [hnew, List.append_nil]
    exact h

/-- Every container reachable through `add` from the empty sorted one
satisfies the count invariant on every key group. -/
theorem build_counts (adds : List (WStr × EContent)) (k : WStr) :
    (((buildSorted adds).entries).filter (fun e => e.name == k)).map Entry.count =
      groupCounts (((buildSorted adds).entries).filter (fun e => e.name == k)).length := by
  suffices hgen : ∀ (adds : List (WStr × EContent)) (es : List Entry),
      (∀ k, (es.filter (fun e => e.name == k)).map Entry.count =
        groupCounts (es.filter (fun e => e.name == k)).length) →
      ∀ k, (((adds.foldl (fun (bp : BP) (p : WStr × EContent) => bp.add p.1 p.2)
              ⟨true, es⟩).entries).filter
              (fun e => e.name == k)).map Entry.count =
        groupCounts (((adds.foldl (fun (bp : BP) (p : WStr × EContent) => bp.add p.1 p.2)
              ⟨true, es⟩).entries).filter
              (fun e => e.name == k)).length by
    exact hgen adds [] (fun k => rfl) k
  intro adds
  induction adds with
  | nil => intro es h k; exact h k
  | cons p rest ih =>
      intro es h k
      simp only [List.foldl_cons]
      have hstep : (BP.mk true es).add p.1 p.2 =
          ⟨true, incFirst p.1 (es ++ [mkNode p.1 p.2])⟩ := rfl
      rw [hstep]
      exact ih (incFirst p.1 (es ++ [mkNode p.1 p.2]))
        (fun k' => counts_inv_add es p.1 p.2 k' (h k')) k

theorem enumFrom_counts_zero (l : List Entry) :
    ∀ i, l.map Entry.count = List.replicate l.length 0 →
      (l.enumFrom i).map (fun p => (p.1, p.2.count)) =
        (List.range' i l.length).map (fun j => (j, 0)) := by
  induction l with
  | nil => intro i _; rfl
  | cons e rest ih =>
      intro i h
      simp only [List.map_cons, List.length_cons, List.replicate_succ] at h
      obtain ⟨h1, h2⟩ := List.cons.inj h
      simp only [List.enumFrom, List.map_cons, List.length_cons, List.range',
        h1, ih (i + 1) h2]

/-- The `(i, node.count)` view of one enumerated key group whose counts
satisfy the invariant. -/
theorem enum_group (l : List Entry)
    (h : l.map Entry.count = groupCounts l.length) :
    (l.enum).map (fun p => (p.1, p.2.count)) =
      (List.range l.length).map (fun i => (i, if i = 0 then l.length else 0)) := by
  cases l with
  | nil => rfl
  | cons e rest =>
      simp only [List.map_cons, List.length_cons, groupCounts] at h
      obtain ⟨h1, h2⟩ := List.cons.inj h
      have henum : (e :: rest).enum = (0, e) :: rest.enumFrom 1 := rfl
      rw [henum, List.range_eq_range', List.length_cons]
      have hr : List.range' 0 (rest.length + 1) = 0 :: List.range' 1 rest.length := rfl
      rw [hr]
      simp only [List.map_cons, List.length_cons, h1, List.cons.injEq]
      refine ⟨by simp, ?_⟩
      rw [enumFrom_counts_zero rest 1 h2]
      apply List.map_congr_left
      intro j hj
      have h1j : 1 ≤ j := by
        rcases List.mem_range'.1 hj with ⟨i, _, rfl⟩
        omega
      have : j ≠ 0 := by omega
      simp [this]

/-- C2 counterexample: in the sorted container holding `a=1, a=2`
(so `n = 2`), the serialized records do not all carry `count = n`, and
the emitted index column is not the permutation `0..n-1`: the emission
walks the duplicated key list `["a", "a"]`, writing the pairs
`(0,2), (1,0), (0,2), (1,0)` — the second record carries `count = 0`
(only the first node's counter is ever incremented by `add`), and the
group is emitted twice over. -/
theorem sorted_records_counterexample :
    recordPairs (((BP.mk true []).add [97] (.par [49])).add [97] (.par [50])).entries
      = [(0, 2), (1, 0), (0, 2), (1, 0)] ∧
    ¬ (recordPairs
        (((BP.mk true []).add [97] (.par [49])).add [97] (.par [50])).entries).all
        (fun p => p.2 == 2) ∧
    (recordPairs
        (((BP.mk true []).add [97] (.par [49])).add [97] (.par [50])).entries).map
        Prod.fst ≠ [0, 1] := by
  refine ⟨rfl, by decide, by decide⟩

/-- C2 amended: when a container populated through `add` with
`sorted = true` is serialized, the `(index, count)` pairs are emitted by
walking `sorted(keys())` — in which a key stored `n` times occurs `n`
times — and for each key occurrence the whole group is enumerated: the
index column of each group pass is `0..n-1`, the count field is `n` on
the group's first record and `0` on the others. -/
theorem sorted_records_amended (adds : List (WStr × EContent)) :
    recordPairs (buildSorted adds).entries =
      (sortW ((buildSorted adds).entries.map Entry.name)).flatMap
        (fun k =>
          (List.range
              (((buildSorted adds).entries.filter (fun e => e.name == k)).length)).map
            (fun i =>
              (i, if i = 0 then
                    ((buildSorted adds).entries.filter (fun e => e.name == k)).length
                  else 0))) := by
  unfold recordPairs sortedSeq
  rw [List.map_flatMap]
  congr 1
  funext k
  rw [List.map_map]
  exact enum_group _ (build_counts adds k)

/-- C1 (code bug, evaluated at the failing input): saving the sorted
tree `a=1, a=2, b=3` and loading the bytes back does not restore the
tree.  `save` iterates `sorted(self._map.keys())`, and `MultiDict.keys()`
repeats a key once per stored item, so the duplicate group of `a` is
emitted twice (five records in total) while the `count` header says 3;
`load` then reads the first three records and produces `a=1, a=2, a=1` —
key `b` is lost and `a` gained a third entry, so no structural equality
that keeps keys, values and per-key duplicate order can hold. -/
theorem binary_roundtrip_failure_eval :
    loadTop (BP.save 2 bpBug) =
      .ok ⟨true, [.par [97] [49] 3, .par [97] [50] 0, .par [97] [49] 0]⟩ ∧
    (bpBug.entries.filter (fun e => e.name == [98])).length = 1 ∧
    (match loadTop (BP.save 2 bpBug) with
     | .ok t => (t.entries.filter (fun e => e.name == [98])).length
     | .error _ => 0) = 0 := by
  refine ⟨rfl, rfl, rfl⟩

/-! ## Path lookup (`BlockPar.get_par`, `BlockPar.get_par_path`)

The path argument is a Python `str` handled character-wise:
`path.strip()`, `path.rsplit(":", 1)` with `int()` on the optional
index, `path.split(".")`, and the walk compares each part against the
*value* of the last part (`part != path[-1]`).  The errors are the
exceptions of the source: `KeyError` (missing segment), `TypeError`
(kind mismatch), `IndexError` (duplicate index out of range),
`ValueError` (`int()` on a non-numeric index). -/

/-- The exceptions of the lookup API. -/
inductive LookupErr where
  /-- `KeyError("...: path not exists")`. -/
  | keyError
  /-- `TypeError` — an intermediate segment is not a Block or the final
  node is not of the requested kind. -/
  | typeError
  /-- `IndexError("...: index out of range")`. -/
  | indexError
  /-- Python `IndexError` from `getall(name)[index]` itself (never
  reached: the `count` guard fires first). -/
  | pyIndexError
  /-- `ValueError` from `int()` on a non-numeric index. -/
  | valueError
deriving DecidableEq, Repr

/-- A path segment (`List Char`) as the UTF-16 units used for tree
keys (identity on the basic plane, where `Char.toNat` is the single
UTF-16 code unit). -/
def strW (s : List Char) : WStr := s.map Char.toNat

/-- The whitespace set of Python's `str.strip()` (ASCII part). -/
def isPyWS (c : Char) : Bool :=
  c == ' ' || c == '\t' || c == '\n' || c == '\r' || c == '\x0b' || c == '\x0c'

/-- `path.strip()`. -/
def trimWS (s : List Char) : List Char :=
  ((s.dropWhile isPyWS).reverse.dropWhile isPyWS).reverse

/-- Python `s.split(sep)` for a one-character separator (always at
least one part). -/
def splitOnChar (sep : Char) : List Char → List (List Char)
  | [] => [[]]
  | c :: rest =>
    if c = sep then [] :: splitOnChar sep rest
    else
      match splitOnChar sep rest with
      | [] => [[c]]
      | p :: ps => (c :: p) :: ps

/-- Re-join parts with `':'` (helper for `rsplit(":", 1)`). -/
def joinColon : List (List Char) → List Char
  | [] => []
  | [p] => p
  | p :: ps => p ++ ':' :: joinColon ps

/-- Python `s.rsplit(":", 1)`: split at the last colon only. -/
def rsplitColon1 (s : List Char) : List (List Char) :=
  match (splitOnChar ':' s).reverse with
  | [] => [s]
  | [_] => [s]
  | lastPart :: restRev => [joinColon restRev.reverse, lastPart]

/-- Decimal digit accumulator for `pyInt`. -/
def digitsValAux : Nat → List Char → Option Nat
  | acc, [] => some acc
  | acc, c :: rest =>
    if c.isDigit then digitsValAux (acc * 10 + (c.toNat - 48)) rest else none

/-- Python `int(s)` on the index strings that occur in paths (optional
sign, decimal digits; the additional whitespace/underscore tolerance of
`int()` is irrelevant here). `none` models a raised `ValueError`. -/
def pyInt : List Char → Option Int
  | [] => none
  | '-' :: rest =>
    match rest with
    | [] => none
    | _ => (digitsValAux 0 rest).map (fun n => -(n : Int))
  | '+' :: rest =>
    match rest with
    | [] => none
    | _ => (digitsValAux 0 rest).map (fun n => (n : Int))
  | l => (digitsValAux 0 l).map (fun n => (n : Int))

/-- `BlockPar.get_par(name, index)`: `getone` (first item under the
key, `KeyError` when absent); for `index > 0` the guard
`node.count == 1 or index >= node.count` raises `IndexError`, otherwise
the node is `getall(name)[index]`; a non-Param node raises
`TypeError`. -/
def getPar (es : List Entry) (name : WStr) (index : Int) : Except LookupErr WStr :=
  match es.find? (fun e => e.name == name) with
  | none => .error .keyError
  | some node =>
    let sel : Except LookupErr Entry :=
      if 0 < index then
        if node.count = 1 ∨ (node.count : Int) ≤ index then .error .indexError
        else
          match (es.filter (fun e => e.name == name)).get? index.toNat with
          | some n2 => .ok n2
          | none => .error .pyIndexError
      else .ok node
    match sel with
    | .error e => .error e
    | .ok node' =>
      match node' with
      | .par _ v _ => .ok v
      | .blk _ _ _ _ => .error .typeError

/-- The segment walk of `get_par_path`: membership check first, then
the value comparison `part != path[-1]` decides between descending
(Block required) and the final Param lookup with the optional duplicate
index.  Falling off the loop returns Python `None` (`.ok none`),
unreachable because the last part always equals itself. -/
def walkPath (last : List Char) (index : Int) :
    List Entry → List (List Char) → Except LookupErr (Option WStr)
  | _, [] => .ok none
  | es, part :: rest =>
    match es.find? (fun e => e.name == strW part) with
    | none => .error .keyError
    | some node =>
      if part ≠ last then
        match node with
        | .blk _ _ children _ => walkPath last index children rest
        | .par _ _ _ => .error .typeError
      else
        if 0 < index then
          if node.count = 1 ∨ (node.count : Int) ≤ index then .error .indexError
          else
            match (es.filter (fun e => e.name == strW part)).get? index.toNat with
            | some n2 =>
              (match n2 with
               | .par _ v _ => .ok (some v)
               | .blk _ _ _ _ => .error .typeError)
            | none => .error .pyIndexError
        else
          match node with
          | .par _ v _ => .ok (some v)
          | .blk _ _ _ _ => .error .typeError

/-- `BlockPar.get_par_path(path)`: strip, `rsplit(":", 1)` with `int()`
on the optional index, `split(".")`, then the walk from this
container. -/
def BP.getParPath (bp : BP) (path : List Char) : Except LookupErr (Option WStr) :=
  let stripped := trimWS path
  let walkOn : List Char → Int → Except LookupErr (Option WStr) := fun p index =>
    let parts := splitOnChar '.' p
    walkPath (parts.getLast?.getD []) index bp.entries parts
  match rsplitColon1 stripped with
  | [p, istr] =>
    match pyInt istr with
    | none => .error .valueError
    | some i => walkOn p i
  | [p] => walkOn p 0
  | _ => .error .valueError

/-- The tree of the C8 scenario: under the sorted root, a Block `root`
holding two `child` entries, the second a Param `"x"` (built through
`add`, so the first `child` node carries the duplicate count 2). -/
def c8tree : BP :=
  (BP.mk true []).add (strW "root".data)
    (.blk true
      (((BP.mk true []).add (strW "child".data) (.par (strW "y".data))).add
        (strW "child".data) (.par (strW "x".data))).entries)

/-- C8: `get_par_path` resolves a dotted path with an optional trailing
`:N` selecting the N-th (0-based) duplicate of the final key:
`"root.child:1"` returns `"x"`, index 2 fails with `IndexError`
(out of range), a missing segment fails with `KeyError` (path not
found), and a kind mismatch — the final segment resolving to a Block —
fails with `TypeError`. -/
theorem get_par_path_example :
    BP.getParPath c8tree "root.child:1".data = .ok (some (strW "x".data)) ∧
    BP.getParPath c8tree "root.child:2".data = .error .indexError ∧
    BP.getParPath c8tree "root.missing".data = .error .keyError ∧
    BP.getParPath c8tree "root".data = .error .typeError := by
  refine ⟨rfl, rfl, rfl, rfl⟩

/-- A container populated through `add` starting from the empty
*unsorted* `BlockPar(sort=False)`. -/
def buildUnsorted (adds : List (WStr × EContent)) : BP :=
  adds.foldl (fun (bp : BP) (p : WStr × EContent) => bp.add p.1 p.2) ⟨false, []⟩

theorem build_unsorted_counts (adds : List (WStr × EContent)) :
    ∀ e ∈ (buildUnsorted adds).entries, e.count = 0 := by
  suffices hgen : ∀ (adds : List (WStr × EContent)) (es : List Entry),
      (∀ e ∈ es, e.count = 0) →
      ∀ e ∈ (adds.foldl (fun (bp : BP) (p : WStr × EContent) => bp.add p.1 p.2)
              ⟨false, es⟩).entries, e.count = 0 by
    exact hgen adds [] (by intro e he; cases he)
  intro adds
  induction adds with
  | nil => intro es h; exact h
  | cons p rest ih =>
      intro es h
      simp only [List.foldl_cons]
      have hstep : (BP.mk false es).add p.1 p.2 = ⟨false, es ++ [mkNode p.1 p.2]⟩ := rfl
      rw [hstep]
      refine ih (es ++ [mkNode p.1 p.2]) ?_
      intro e he
      rcases List.mem_append.1 he with h1 | h2
      · exact h e h1
      · rcases List.mem_singleton.1 h2 with rfl
        exact mkNode_count p.1 p.2

/-- The concrete unsorted container `a=1, a=2` used to exercise the
`get_par_path` side of C10. -/
def bpU10 : BP :=
  ((BP.mk false []).add (strW "a".data) (.par (strW "1".data))).add
    (strW "a".data) (.par (strW "2".data))

/-- C10: `add` maintains the per-key duplicate counter only in sorted
containers, so in any container built through `add` with
`sorted = false` every stored `count` is 0 and `get_par(name, N)` for
`N > 0` fails with `IndexError` even when the requested duplicate
exists (`N` below the real multiplicity); likewise `get_par_path` with
a trailing `:1` on the concrete unsorted container `a=1, a=2`. -/
theorem unsorted_duplicate_index_error :
    (∀ (adds : List (WStr × EContent)) (k : WStr) (N : Int),
      0 < N →
      N < (((buildUnsorted adds).entries.filter (fun e => e.name == k)).length : Int) →
      getPar (buildUnsorted adds).entries k N = .error .indexError) ∧
    BP.getParPath bpU10 "a:1".data = .error .indexError := by
  constructor
  · intro adds k N hN hlt
    have hlen : 0 < ((buildUnsorted adds).entries.filter (fun e => e.name == k)).length := by
      omega
    rcases hfind : (buildUnsorted adds).entries.find? (fun e => e.name == k) with _ | node
    · exfalso
      rcases List.length_pos.1 hlen with -
      have hex : ∃ e ∈ (buildUnsorted adds).entries, (fun e => e.name == k) e = true := by
        rcases List.exists_mem_of_length_pos hlen with ⟨e, he⟩
        have hef := List.mem_filter.1 he
        exact ⟨e, hef.1, hef.2⟩
      rcases hex with ⟨e, hmem, hpe⟩
      have := List.find?_eq_none.1 hfind e hmem
      exact this hpe
    · have hmem := List.mem_of_find?_eq_some hfind
      have hcount : node.count = 0 := build_unsorted_counts adds node hmem
      simp only [getPar, hfind]
      rw [if_pos hN]
      have hcond : node.count = 1 ∨ (node.count : Int) ≤ N := by
        right
        rw [hcount]
        omega
      rw [if_pos hcond]
  · rfl

/-- Witness for the universal part of `unsorted_duplicate_index_error`:
the unsorted container `a=1, a=2` has two entries under `a`, yet
`get_par("a", 1)` raises `IndexError`. -/
theorem unsorted_duplicate_index_error_witness :
    getPar (buildUnsorted
        [(strW "a".data, .par (strW "1".data)), (strW "a".data, .par (strW "2".data))]).entries
      (strW "a".data) 1 = .error .indexError :=
  unsorted_duplicate_index_error.1
    [(strW "a".data, .par (strW "1".data)), (strW "a".data, .par (strW "2".data))]
    (strW "a".data) 1 (by decide) (by decide)

/-! ## Text codec, heredoc part (`BlockPar.save_txt`, `BlockPar.load_txt`)

`save_txt`, when a parameter value contains `\r` or `\n`, writes
`name=<<<\r\n`, then every line of `value.splitlines(keepends=True)`
prefixed with the 4-spaces-per-level indent, then `\r\n`, the indent,
`>>>` and the closing `\r\n`.  `load_txt`, on a value starting with
`<<<`, loops over `f.readline()`: a line that is blank after stripping
tab/LF/CR/space is *skipped*; while `value` is still empty the leading
space count of the line (capped at `4 * level`) becomes `spacenum`;
a line starting (after tab/space) with `>>>` terminates, returning
`value.rstrip("\n\r")`; otherwise `line[spacenum:]` is appended.  EOF
before the terminator raises the unterminated-heredoc exception. -/

/-- The error of the heredoc reader
(`Exception("BlockPar.load_txt: heredoc end marker not found")`). -/
inductive TxtErr where
  | unterminatedHeredoc
deriving DecidableEq, Repr

/-- The character class of `strip("\x09\x0a\x0d\x20")`. -/
def pyStripCh (c : Char) : Bool :=
  c == '\t' || c == '\n' || c == '\r' || c == ' '

/-- `line.strip("\x09\x0a\x0d\x20")` (the blank-line test). -/
def pyStrip (s : List Char) : List Char :=
  ((s.dropWhile pyStripCh).reverse.dropWhile pyStripCh).reverse

/-- `line.lstrip("\x09\x20")`. -/
def lstripTS (s : List Char) : List Char :=
  s.dropWhile (fun c => c == '\t' || c == ' ')

/-- `len(line) - len(line.lstrip("\x20"))`: the leading space count. -/
def leadSpaces (s : List Char) : Nat :=
  (s.takeWhile (fun c => c == ' ')).length

/-- `line.lstrip("\x09\x20").startswith(">>>")`. -/
def startsGGG (s : List Char) : Bool :=
  match lstripTS s with
  | c1 :: c2 :: c3 :: _ => c1 == '>' && c2 == '>' && c3 == '>'
  | _ => false

/-- `value.rstrip("\x0a\x0d")`. -/
def rstripNL (s : List Char) : List Char :=
  (s.reverse.dropWhile (fun c => c == '\n' || c == '\r')).reverse

/-- A line-break character of Python `str.splitlines`. -/
def isLineBreak (c : Char) : Bool :=
  c == '\n' || c == '\r' || c == '\x0b' || c == '\x0c' ||
  c == '\x1c' || c == '\x1d' || c == '\x1e' ||
  c == '\u0085' || c == '\u2028' || c == '\u2029'

/-- Accumulator loop of `str.splitlines(keepends=True)`. -/
def splitKeepAux : List Char → List Char → List (List Char)
  | [], acc => if acc = [] then [] else [acc.reverse]
  | '\r' :: '\n' :: rest, acc => (acc.reverse ++ ['\r', '\n']) :: splitKeepAux rest []
  | c :: rest, acc =>
    if isLineBreak c then (acc.reverse ++ [c]) :: splitKeepAux rest []
    else splitKeepAux rest (c :: acc)

/-- `value.splitlines(keepends=True)`. -/
def splitKeep (s : List Char) : List (List Char) := splitKeepAux s []

/-- Accumulator loop for the stream of `f.readline()` results: lines
split after each `"\n"`, terminators kept, last partial line kept. -/
def pyLinesAux : List Char → List Char → List (List Char)
  | [], acc => if acc = [] then [] else [acc.reverse]
  | c :: rest, acc =>
    if c = '\n' then (acc.reverse ++ ['\n']) :: pyLinesAux rest []
    else pyLinesAux rest (c :: acc)

/-- The sequence of lines `f.readline()` yields on a text. -/
def pyLines (s : List Char) : List (List Char) := pyLinesAux s []

/-- The 4-spaces-per-level indent written by `save_txt`. -/
def indentSp (level : Nat) : List Char := List.replicate (4 * level) ' '

/-- The bytes `save_txt` writes after `name=<<<\r\n` for a multi-line
value: each keepends-split line behind the indent, then `\r\n`, the
indent, `>>>`, and the closing `\r\n`. -/
def heredocBody (level : Nat) (v : List Char) : List Char :=
  ((splitKeep v).flatMap (fun s => indentSp level ++ s)) ++
    ['\r', '\n'] ++ indentSp level ++ ['>', '>', '>'] ++ ['\r', '\n']

/-- The full heredoc form of a value: the `<<<` marker line, then the
body (`save_txt` writes `<<<` and `\r\n` before the split lines). -/
def heredocWrite (level : Nat) (v : List Char) : List Char :=
  ['<', '<', '<'] ++ ['\r', '\n'] ++ heredocBody level v

/-- The reader loop of `load_txt`'s heredoc mode over the remaining
lines: skip blank lines; while `value` is empty, compute `spacenum`
(leading spaces capped at `4 * level`); stop at a `>>>` line returning
`value.rstrip("\n\r")`; otherwise append `line[spacenum:]`.  The empty
line list is EOF: the unterminated-heredoc exception. -/
def hdLoop (level : Nat) (spacenum : Nat) (value : List Char) :
    List (List Char) → Except TxtErr (List Char)
  | [] => .error .unterminatedHeredoc
  | line :: rest =>
    if pyStrip line = [] then hdLoop level spacenum value rest
    else
      let sn := if value = [] then min (leadSpaces line) (4 * level) else spacenum
      if startsGGG line then .ok (rstripNL value)
      else hdLoop level sn (value ++ line.drop sn) rest

/-- The heredoc branch of `load_txt` applied to the text after the
`name=<<<` line (`value = ""`, `spacenum = 0` initially). -/
def heredocDecode (level : Nat) (input : List Char) : Except TxtErr (List Char) :=
  hdLoop level 0 [] (pyLines input)

/-- C7 counterexample: the value `"a\r\n\r\nb"` (an embedded blank
line) is saved in heredoc form, but loading the text back yields
`"a\r\nb"` — the blank line is skipped by the reader's
`if line.strip() == "": continue` — so the original string is not
restored. -/
theorem heredoc_blank_line_lost :
    heredocDecode 0 (heredocBody 0 ("a\r\n\r\nb".data)) = .ok ("a\r\nb".data) ∧
    ("a\r\nb".data) ≠ ("a\r\n\r\nb".data) := by
  refine ⟨rfl, by decide⟩

set_option maxHeartbeats 1000000 in
theorem splitKeepAux_flatten : ∀ (s acc : List Char),
    (splitKeepAux s acc).flatten = acc.reverse ++ s := by
  intro s acc
  induction s, acc using splitKeepAux.induct <;> simp_all [splitKeepAux]

theorem splitKeep_flatten (s : List Char) : (splitKeep s).flatten = s := by
  simpa using splitKeepAux_flatten s []

theorem pyLinesAux_chunk (body : List Char) (hb : '\n' ∉ body) :
    ∀ (rest acc : List Char),
      pyLinesAux (body ++ '\n' :: rest) acc =
        (acc.reverse ++ (body ++ ['\n'])) :: pyLinesAux rest [] := by
  induction body with
  | nil => intro rest acc; simp [pyLinesAux]
  | cons c t ih =>
      intro rest acc
      have hc : ¬ (c = '\n') := fun h => hb (h ▸ List.mem_cons_self c t)
      simp only [List.cons_append, pyLinesAux, if_neg hc, List.append_eq]
      rw [ih (fun h => hb (List.mem_cons_of_mem c h)) rest (c :: acc)]
      simp

theorem dropWhile_replicate_space (p : Char → Bool) (hp : p ' ' = true) :
    ∀ (n : Nat) (s : List Char),
      (List.replicate n ' ' ++ s).dropWhile p = s.dropWhile p := by
  intro n
  induction n with
  | zero => intro s; rfl
  | succ n ih =>
      intro s
      simp only [List.replicate_succ, List.cons_append, List.dropWhile_cons, hp, if_pos]
      exact ih s

theorem takeWhile_replicate_space (p : Char → Bool) (hp : p ' ' = true) :
    ∀ (n : Nat) (s : List Char),
      (List.replicate n ' ' ++ s).takeWhile p = List.replicate n ' ' ++ s.takeWhile p := by
  intro n
  induction n with
  | zero => intro s; rfl
  | succ n ih =>
      intro s
      simp only [List.replicate_succ, List.cons_append, List.takeWhile_cons, hp, if_pos]
      rw [ih s]

theorem pyStrip_indent (level : Nat) (s : List Char) :
    pyStrip (indentSp level ++ s) = pyStrip s := by
  unfold pyStrip indentSp
  rw [dropWhile_replicate_space pyStripCh (by rfl) (4 * level) s]

theorem lstripTS_indent (level : Nat) (s : List Char) :
    lstripTS (indentSp level ++ s) = lstripTS s := by
  unfold lstripTS indentSp
  rw [dropWhile_replicate_space _ (by rfl) (4 * level) s]

theorem startsGGG_indent (level : Nat) (s : List Char) :
    startsGGG (indentSp level ++ s) = startsGGG s := by
  unfold startsGGG
  rw [lstripTS_indent]

theorem leadSpaces_indent (level : Nat) (s : List Char) :
    leadSpaces (indentSp level ++ s) = 4 * level + leadSpaces s := by
  unfold leadSpaces indentSp
  rw [takeWhile_replicate_space _ (by rfl) (4 * level) s]
  simp

theorem drop_indent (level : Nat) (s : List Char) :
    (indentSp level ++ s).drop (4 * level) = s := by
  have h : (indentSp level).length = 4 * level := by simp [indentSp]
  rw [← h, List.drop_left]

theorem dropWhile_append_nil (p : Char → Bool) :
    ∀ (x y : List Char), x.dropWhile p = [] →
      (x ++ y).dropWhile p = y.dropWhile p := by
  intro x
  induction x with
  | nil => intro y _; rfl
  | cons c t ih =>
      intro y h
      cases hc : p c with
      | true =>
          rw [List.dropWhile_cons, if_pos hc] at h
          rw [List.cons_append, List.dropWhile_cons, if_pos hc]
          exact ih y h
      | false =>
          rw [List.dropWhile_cons, if_neg (by simp [hc])] at h
          cases h

theorem dropWhile_append_ne (p : Char → Bool) :
    ∀ (x y : List Char), x.dropWhile p ≠ [] →
      (x ++ y).dropWhile p = x.dropWhile p ++ y := by
  intro x
  induction x with
  | nil => intro y h; exact absurd rfl h
  | cons c t ih =>
      intro y h
      cases hc : p c with
      | true =>
          rw [List.dropWhile_cons, if_pos hc] at h
          rw [List.cons_append, List.dropWhile_cons, if_pos hc,
            List.dropWhile_cons, if_pos hc]
          exact ih y h
      | false =>
          rw [List.cons_append, List.dropWhile_cons, if_neg (by simp [hc]),
            List.dropWhile_cons, if_neg (by simp [hc])]
          rfl

theorem pyStrip_rn (x : List Char) : pyStrip (x ++ ['\r', '\n']) = pyStrip x := by
  unfold pyStrip
  rcases hd : x.dropWhile pyStripCh with _ | ⟨c, t⟩
  · rw [dropWhile_append_nil pyStripCh x ['\r', '\n'] hd]
    rfl
  · rw [dropWhile_append_ne pyStripCh x ['\r', '\n'] (by rw [hd]; simp), hd]
    have hrev : ((c :: t) ++ ['\r', '\n']).reverse = '\n' :: '\r' :: (c :: t).reverse := by
      simp
    rw [hrev]
    have h1 : pyStripCh '\n' = true := rfl
    have h2 : pyStripCh '\r' = true := rfl
    simp only [List.dropWhile_cons, h1, h2, if_pos]

theorem startsGGG_rn (x : List Char) (hgg : startsGGG x = false) :
    startsGGG (x ++ ['\r', '\n']) = false := by
  unfold startsGGG lstripTS at hgg ⊢
  rcases hd : x.dropWhile (fun c => c == '\t' || c == ' ') with _ | ⟨c1, t⟩
  · rw [dropWhile_append_nil _ x ['\r', '\n'] hd]
    rfl
  · rw [dropWhile_append_ne _ x ['\r', '\n'] (by rw [hd]; simp), hd]
    rw [hd] at hgg
    cases t with
    | nil =>
        have hrg : ('\r' == '>') = false := rfl
        simp [hrg]
    | cons c2 t2 =>
        cases t2 with
        | nil =>
            have hrg : ('\r' == '>') = false := rfl
            simp [hrg]
        | cons c3 t3 =>
            simpa using hgg

theorem rstripNL_append_rn (x : List Char) (hx : x ≠ [])
    (h1 : x.getLast? ≠ some '\n') (h2 : x.getLast? ≠ some '\r') :
    rstripNL (x ++ ['\r', '\n']) = x := by
  unfold rstripNL
  have hrev : (x ++ ['\r', '\n']).reverse = '\n' :: '\r' :: x.reverse := by simp
  rw [hrev]
  have hn : ((fun c => c == '\n' || c == '\r') '\n') = true := rfl
  have hr : ((fun c => c == '\n' || c == '\r') '\r') = true := rfl
  simp only [List.dropWhile_cons, hn, hr, if_pos]
  rcases hxr : x.reverse with _ | ⟨c, t⟩
  · exact absurd (List.reverse_eq_nil_iff.1 hxr) hx
  · have hlast : x.getLast? = some c := by
      rw [← List.head?_reverse, hxr]
      rfl
    have hc1 : ¬ (c = '\n') := fun h => h1 (h ▸ hlast)
    have hc2 : ¬ (c = '\r') := fun h => h2 (h ▸ hlast)
    have hpc : ((fun c => c == '\n' || c == '\r') c) = false := by
      simp [hc1, hc2]
    simp only [List.dropWhile_cons, hpc, Bool.false_eq_true, if_false]
    rw [← hxr, List.reverse_reverse]

theorem not_nl_indent (level : Nat) (s : List Char) (hs : '\n' ∉ s) :
    '\n' ∉ indentSp level ++ s := by
  intro h
  rcases List.mem_append.1 h with h | h
  · unfold indentSp at h
    rcases List.mem_replicate.1 h with ⟨-, h2⟩
    exact absurd h2 (by decide)
  · exact hs h

theorem not_nl_append_r (s : List Char) (hs : '\n' ∉ s) : '\n' ∉ s ++ ['\r'] := by
  intro h
  rcases List.mem_append.1 h with h | h
  · exact hs h
  · rcases List.mem_singleton.1 h with h
    exact absurd h (by decide)

theorem pyLines_body (level : Nat) (lm : List Char) (hlm : '\n' ∉ lm) :
    ∀ ls : List (List Char),
      (∀ l ∈ ls, ∃ b, l = b ++ ['\n'] ∧ '\n' ∉ b) →
      pyLines (((ls ++ [lm]).flatMap (fun s => indentSp level ++ s)) ++
          ['\r', '\n'] ++ indentSp level ++ ['>', '>', '>'] ++ ['\r', '\n']) =
        (ls.map (fun l => indentSp level ++ l)) ++
          [indentSp level ++ (lm ++ ['\r', '\n']),
           indentSp level ++ ['>', '>', '>', '\r', '\n']] := by
  intro ls
  induction ls with
  | nil =>
      intro _
      unfold pyLines
      have hsh : ((([] ++ [lm]).flatMap (fun s => indentSp level ++ s)) ++
          ['\r', '\n'] ++ indentSp level ++ ['>', '>', '>'] ++ ['\r', '\n']) =
          (indentSp level ++ (lm ++ ['\r'])) ++
            '\n' :: ((indentSp level ++ ['>', '>', '>', '\r']) ++ '\n' :: []) := by
        simp
      rw [hsh]
      rw [pyLinesAux_chunk (indentSp level ++ (lm ++ ['\r']))
        (not_nl_indent level (lm ++ ['\r']) (not_nl_append_r lm hlm)) _ []]
      rw [pyLinesAux_chunk (indentSp level ++ ['>', '>', '>', '\r'])
        (not_nl_indent level ['>', '>', '>', '\r'] (by decide)) [] []]
      simp [pyLinesAux]
  | cons l ls ih =>
      intro hls
      rcases hls l (List.mem_cons_self l ls) with ⟨b, rfl, hbn⟩
      have hrest := fun l' hl' => hls l' (List.mem_cons_of_mem _ hl')
      unfold pyLines at ih ⊢
      have hsh : (((((b ++ ['\n']) :: ls) ++ [lm]).flatMap (fun s => indentSp level ++ s)) ++
          ['\r', '\n'] ++ indentSp level ++ ['>', '>', '>'] ++ ['\r', '\n']) =
          (indentSp level ++ b) ++
            '\n' :: (((ls ++ [lm]).flatMap (fun s => indentSp level ++ s)) ++
              ['\r', '\n'] ++ indentSp level ++ ['>', '>', '>'] ++ ['\r', '\n']) := by
        simp
      rw [hsh]
      rw [pyLinesAux_chunk (indentSp level ++ b) (not_nl_indent level b hbn) _ []]
      rw [ih hrest]
      simp

theorem hdLoop_lines (level : Nat) (lm : List Char)
    (hlm1 : pyStrip lm ≠ []) (hlm2 : startsGGG lm = false) :
    ∀ (ls : List (List Char)) (value : List Char) (spacenum : Nat),
      (∀ l ∈ ls, pyStrip l ≠ [] ∧ startsGGG l = false) →
      (value = [] ∨ spacenum = 4 * level) →
      hdLoop level spacenum value
        ((ls.map (fun l => indentSp level ++ l)) ++
          [indentSp level ++ (lm ++ ['\r', '\n']),
           indentSp level ++ ['>', '>', '>', '\r', '\n']]) =
        .ok (rstripNL (value ++ (ls.flatten ++ (lm ++ ['\r', '\n'])))) := by
  intro ls
  induction ls with
  | nil =>
      intro value spacenum _ hinv
      simp only [List.map_nil, List.nil_append, List.flatten_nil]
      simp only [hdLoop]
      have hps1 : pyStrip (indentSp level ++ (lm ++ ['\r', '\n'])) = pyStrip lm := by
        rw [pyStrip_indent, pyStrip_rn]
      rw [if_neg (by rw [hps1]; exact hlm1)]
      have hgg1 : startsGGG (indentSp level ++ (lm ++ ['\r', '\n'])) = false := by
        rw [startsGGG_indent]
        rcases lm with _ | _
        · exact absurd rfl hlm1
        · exact startsGGG_rn _ hlm2
      have hsn : (if value = [] then
            min (leadSpaces (indentSp level ++ (lm ++ ['\r', '\n']))) (4 * level)
          else spacenum) = 4 * level := by
        have hmin : min (leadSpaces (indentSp level ++ (lm ++ ['\r', '\n']))) (4 * level)
            = 4 * level := by
          rw [leadSpaces_indent]
          omega
        rcases hinv with rfl | hsp
        · rw [if_pos rfl, hmin]
        · by_cases hv : value = []
          · rw [if_pos hv, hmin]
          · rw [if_neg hv, hsp]
      simp only [hgg1, Bool.false_eq_true, if_false, hsn, drop_indent]
      have hps2 : pyStrip (indentSp level ++ ['>', '>', '>', '\r', '\n'])
          = ['>', '>', '>'] := by
        rw [pyStrip_indent]
        rfl
      have hgg2 : startsGGG (indentSp level ++ ['>', '>', '>', '\r', '\n']) = true := by
        rw [startsGGG_indent]
        rfl
      rw [if_neg (by rw [hps2]; decide), if_pos hgg2]
  | cons l ls ih =>
      intro value spacenum hls hinv
      obtain ⟨hnb, hgg⟩ := hls l (List.mem_cons_self l ls)
      have hrest := fun l' h => hls l' (List.mem_cons_of_mem _ h)
      simp only [List.map_cons, List.cons_append]
      simp only [hdLoop]
      rw [if_neg (by rw [pyStrip_indent]; exact hnb)]
      have hsn : (if value = [] then
            min (leadSpaces (indentSp level ++ l)) (4 * level)
          else spacenum) = 4 * level := by
        have hmin : min (leadSpaces (indentSp level ++ l)) (4 * level) = 4 * level := by
          rw [leadSpaces_indent]
          omega
        rcases hinv with rfl | hsp
        · rw [if_pos rfl, hmin]
        · by_cases hv : value = []
          · rw [if_pos hv, hmin]
          · rw [if_neg hv, hsp]
      simp only [startsGGG_indent, hgg, Bool.false_eq_true, if_false, hsn, drop_indent]
      rw [ih (value ++ l) (4 * level) hrest (Or.inr rfl)]
      simp

/-- C7 amended: the heredoc encode/decode round-trip is exact for a
value whose lines (as Python `splitlines(keepends=True)` cuts them) are
each `\n`-terminated except the last, are never blank after stripping
tab/LF/CR/space, never start with `>>>` after tabs/spaces, and whose
last line ends in neither CR nor LF: for such a value (at any nesting
level) loading the saved heredoc yields exactly the original string.
(The counterexample `heredoc_blank_line_lost` shows why blank lines
must be excluded; a trailing line break is likewise eaten by the final
`rstrip`, and a bare CR or an exotic Unicode line break desynchronizes
`splitlines` from `readline`, which all the conditions above rule
out.) -/
theorem heredoc_roundtrip_amended (level : Nat) (v : List Char)
    (ls : List (List Char)) (lm : List Char)
    (hsplit : splitKeep v = ls ++ [lm])
    (hls : ∀ l ∈ ls, pyStrip l ≠ [] ∧ startsGGG l = false ∧
      ∃ b, l = b ++ ['\n'] ∧ '\n' ∉ b)
    (hlm1 : pyStrip lm ≠ []) (hlm2 : startsGGG lm = false) (hlm3 : '\n' ∉ lm)
    (hlm4 : lm.getLast? ≠ some '\r') :
    heredocDecode level (heredocBody level v) = .ok v := by
  have hveq : ls.flatten ++ lm = v := by
    have h := splitKeep_flatten v
    rw [hsplit] at h
    simpa using h
  unfold heredocDecode heredocBody
  rw [hsplit]
  rw [pyLines_body level lm hlm3 ls (fun l hl => (hls l hl).2.2)]
  rw [hdLoop_lines level lm hlm1 hlm2 ls [] 0
    (fun l hl => ⟨(hls l hl).1, (hls l hl).2.1⟩) (Or.inl rfl)]
  have hlmne : lm ≠ [] := by
    intro h
    rw [h] at hlm1
    exact hlm1 rfl
  have hx : ls.flatten ++ lm ≠ [] := by
    intro h
    exact hlmne (List.append_eq_nil.1 h).2
  have hlast : (ls.flatten ++ lm).getLast? = lm.getLast? :=
    List.getLast?_append_of_ne_nil ls.flatten hlmne
  have h1 : (ls.flatten ++ lm).getLast? ≠ some '\n' := by
    rw [hlast]
    intro h
    exact hlm3 (List.mem_of_mem_getLast? h)
  have h2 : (ls.flatten ++ lm).getLast? ≠ some '\r' := by
    rw [hlast]
    exact hlm4
  rw [List.nil_append,
    show ls.flatten ++ (lm ++ ['\r', '\n']) = (ls.flatten ++ lm) ++ ['\r', '\n'] by simp,
    rstripNL_append_rn (ls.flatten ++ lm) hx h1 h2, hveq]

/-- Witness for `heredoc_roundtrip_amended`: the value `"a\r\nb"` at
nesting level 1 survives the heredoc round-trip exactly. -/
theorem heredoc_roundtrip_amended_witness :
    heredocDecode 1 (heredocBody 1 ("a\r\nb".data)) = .ok ("a\r\nb".data) :=
  heredoc_roundtrip_amended 1 ("a\r\nb".data) ["a\r\n".data] ("b".data)
    (by decide)
    (by
      intro l hl
      rcases List.mem_singleton.1 hl with rfl
      exact ⟨by decide, by decide, "a\r".data, by decide, by decide⟩)
    (by decide) (by decide) (by decide) (by decide)

end RU
